import Mathlib

/-!
# Verification of the plate-text resolution subsystem

A shallow embedding, in Lean 4, of the pure text/geometry core of an
automatic license-plate recognition pipeline
(`src/utils/license_plate_processor.py`, `src/utils/vehicle_tracker.py`,
`src/utils/visualizer.py`, `src/main.py`), together with theorems settling
the specification claims about it.

Python strings are modelled as `List Char` (ASCII fragment: the
repository only ever manipulates ASCII plate text, digits `0`-`9` and
letters `A`-`Z`/`a`-`z`).  Python floats (confidence scores) are modelled
as `ℚ`: none of the verified claims depends on floating-point rounding,
only on ordering of scores.  Image data (frames, crops) is out of scope;
external collaborators (detector, tracker, OCR engine) appear as inputs.
-/

namespace ALPR

/-- ASCII decimal digit `0`-`9`; model of the character class `\d` of the
Python regex and of `str.isdigit` restricted to ASCII. -/
def isDigit09 (c : Char) : Bool := 48 ≤ c.toNat && c.toNat ≤ 57

/-- ASCII uppercase letter `A`-`Z`; model of the regex class `[A-Z]`. -/
def isUpperAZ (c : Char) : Bool := 65 ≤ c.toNat && c.toNat ≤ 90

/-- ASCII lowercase letter `a`-`z`. -/
def isLowerAZ (c : Char) : Bool := 97 ≤ c.toNat && c.toNat ≤ 122

/-- ASCII letter; model of `str.isalpha` restricted to ASCII. -/
def isAlphaAZ (c : Char) : Bool := isUpperAZ c || isLowerAZ c

/-- Python `s.isdigit()`: true iff `s` is nonempty and all characters are
digits. -/
def pyIsDigit (s : List Char) : Bool := !s.isEmpty && s.all isDigit09

/-- Python `s.isalpha()`: true iff `s` is nonempty and all characters are
letters. -/
def pyIsAlpha (s : List Char) : Bool := !s.isEmpty && s.all isAlphaAZ

/-- Python `s.upper()` (ASCII fragment): uppercase every character. -/
def pyUpper (s : List Char) : List Char := s.map Char.toUpper

/-- Python `s.replace(" ", "")`: remove every space character. -/
def removeSpaces (s : List Char) : List Char := s.filter (fun c => c ≠ ' ')

/-!
## `LicensePlateProcessor.check_plate_format` (strict validator)

The source is `re.match(r"^\d{2}[A-Z]{1,3}\d{2,4}$", plate) is not None`.
Because the character classes `[A-Z]` and `\d` are disjoint, the
backtracking regex matches a string iff its maximal leading run of
uppercase letters after the two digits has length 1..3 and everything
after that run is 2..4 digits; `matchStrictCore` implements exactly that.
Python's `$` anchor matches at the end of the string *or just before a
final newline*, which `check_plate_format` reproduces.
-/

/-- The regex `^\d{2}[A-Z]{1,3}\d{2,4}` matched against the whole list. -/
def matchStrictCore (cs : List Char) : Bool :=
  match cs with
  | a :: b :: rest =>
      isDigit09 a && isDigit09 b &&
      (let letters := rest.takeWhile isUpperAZ
       let ds := rest.dropWhile isUpperAZ
       decide (1 ≤ letters.length) && decide (letters.length ≤ 3) &&
       decide (2 ≤ ds.length) && decide (ds.length ≤ 4) && ds.all isDigit09)
  | _ => false

/-- Model of `LicensePlateProcessor.check_plate_format`: Python `re.match` with the
`$` end-of-string-or-before-final-newline semantics. -/
def check_plate_format (plate : List Char) : Bool :=
  matchStrictCore plate ||
    (plate.getLast? == some '\n' && matchStrictCore plate.dropLast)

/-- Declarative reading of the strict grammar, from the spec's words:
exactly 2 leading digits, then 1-3 uppercase letters, then 2-4 digits, and
nothing else. -/
def StrictGrammar (cs : List Char) : Prop :=
  ∃ a b L D, cs = a :: b :: (L ++ D) ∧
    isDigit09 a = true ∧ isDigit09 b = true ∧
    1 ≤ L.length ∧ L.length ≤ 3 ∧ (∀ c ∈ L, isUpperAZ c = true) ∧
    2 ≤ D.length ∧ D.length ≤ 4 ∧ (∀ c ∈ D, isDigit09 c = true)

theorem isUpperAZ_eq_false_of_isDigit09 {c : Char} (h : isDigit09 c = true) :
    isUpperAZ c = false := by
  simp only [isDigit09, Bool.and_eq_true, decide_eq_true_eq] at h
  simp only [isUpperAZ, Bool.and_eq_false_iff, decide_eq_false_iff_not]
  omega

theorem takeWhile_append_of_head_neg (p : Char → Bool) :
    ∀ (L D : List Char), (∀ c ∈ L, p c = true) →
      (∀ d ∈ D.head?, p d = false) →
      (L ++ D).takeWhile p = L ∧ (L ++ D).dropWhile p = D := by
  intro L
  induction L with
  | nil =>
      intro D _ hD
      cases D with
      | nil => simp [List.takeWhile, List.dropWhile]
      | cons d t =>
          have hd : p d = false := hD d (by simp)
          simp [List.takeWhile, List.dropWhile, hd]
  | cons a L ih =>
      intro D hL hD
      have ha : p a = true := hL a (by simp)
      have := ih D (fun c hc => hL c (by simp [hc])) hD
      simp [List.takeWhile, List.dropWhile, ha, this.1, this.2]

theorem matchStrictCore_iff (cs : List Char) :
    matchStrictCore cs = true ↔ StrictGrammar cs := by
  constructor
  · intro h
    cases cs with
    | nil => simp [matchStrictCore] at h
    | cons a cs1 =>
      cases cs1 with
      | nil => simp [matchStrictCore] at h
      | cons b rest =>
        simp only [matchStrictCore, Bool.and_eq_true, decide_eq_true_eq,
          and_assoc, List.all_eq_true] at h
        obtain ⟨ha, hb, h1, h3, h2, h4, hall⟩ := h
        exact ⟨a, b, rest.takeWhile isUpperAZ, rest.dropWhile isUpperAZ,
          by rw [List.takeWhile_append_dropWhile], ha, hb, h1, h3,
          fun c hc => List.mem_takeWhile_imp hc, h2, h4, hall⟩
  · rintro ⟨a, b, L, D, rfl, ha, hb, h1, h3, hL, h2, h4, hD⟩
    have hhead : ∀ d ∈ D.head?, isUpperAZ d = false := by
      intro d hd
      exact isUpperAZ_eq_false_of_isDigit09 (hD d (List.mem_of_mem_head? hd))
    obtain ⟨htw, hdw⟩ := takeWhile_append_of_head_neg isUpperAZ L D hL hhead
    simp only [matchStrictCore, Bool.and_eq_true, decide_eq_true_eq,
      and_assoc, List.all_eq_true, htw, hdw]
    exact ⟨ha, hb, h1, h3, h2, h4, hD⟩

/-- Claim C4 (amended).  `check_plate_format p` is true iff `p` is exactly 2
digits, 1-3 uppercase letters and 2-4 digits — or that same grammar
followed by one trailing newline, which Python's `$` anchor also accepts. -/
theorem C4_check_plate_format_grammar (p : List Char) :
    check_plate_format p = true ↔
      StrictGrammar p ∨ ∃ cs, p = cs ++ ['\n'] ∧ StrictGrammar cs := by
  unfold check_plate_format
  rw [Bool.or_eq_true, Bool.and_eq_true]
  constructor
  · rintro (h | ⟨hlast, hcore⟩)
    · exact Or.inl ((matchStrictCore_iff p).mp h)
    · rw [beq_iff_eq, List.getLast?_eq_some_iff] at hlast
      obtain ⟨ys, rfl⟩ := hlast
      rw [List.dropLast_concat] at hcore
      exact Or.inr ⟨ys, rfl, (matchStrictCore_iff ys).mp hcore⟩
  · rintro (h | ⟨cs, rfl, h⟩)
    · exact Or.inl ((matchStrictCore_iff p).mpr h)
    · refine Or.inr ⟨?_, ?_⟩
      · rw [beq_iff_eq]
        exact List.getLast?_concat cs
      · rw [List.dropLast_concat]
        exact (matchStrictCore_iff cs).mpr h

/-- Claim C4 counterexample.  The claim "`check_plate_format p` is true iff
`p` is 2 digits, 1-3 uppercase letters, 2-4 digits and *nothing else*"
fails at `"34ABC123\n"`: the function accepts it (Python `$` matches just
before a final newline) although the trailing newline is outside the
claimed grammar. -/
theorem C4_counterexample :
    check_plate_format ('3' :: '4' :: 'A' :: 'B' :: 'C' :: '1' :: '2' :: '3' :: '\n' :: []) = true ∧
      ¬ StrictGrammar ('3' :: '4' :: 'A' :: 'B' :: 'C' :: '1' :: '2' :: '3' :: '\n' :: []) :=
  ⟨by decide, fun h =>
    absurd ((matchStrictCore_iff _).mpr h) (by decide)⟩

/-- Claim C10.  Appending a single newline to any string accepted by the
strict grammar still satisfies `check_plate_format`: the regex end anchor
`$` also matches immediately before a final newline. -/
theorem C10_trailing_newline_accepted (cs : List Char) (h : StrictGrammar cs) :
    check_plate_format (cs ++ ['\n']) = true := by
  unfold check_plate_format
  rw [Bool.or_eq_true, Bool.and_eq_true]
  refine Or.inr ⟨?_, ?_⟩
  · rw [beq_iff_eq]
    exact List.getLast?_concat cs
  · rw [List.dropLast_concat]
    exact (matchStrictCore_iff cs).mpr h

/-- Witness for claim C10 at the concrete input `"34ABC123"`. -/
theorem C10_trailing_newline_accepted_witness :
    check_plate_format (('3' :: '4' :: 'A' :: 'B' :: 'C' :: '1' :: '2' :: '3' :: []) ++ ['\n']) = true :=
  C10_trailing_newline_accepted _ ((matchStrictCore_iff _).mp (by decide))

/-!
## `LicensePlateProcessor.license_complies_format_flexible`
-/

/-- Decision made by `license_complies_format_flexible` on the part after
the two leading digits (Python local `rest`, with `l = len(rest)`). -/
def flexTail (rest : List Char) : Bool :=
  decide (5 ≤ rest.length) && decide (rest.length ≤ 7) &&
  ((decide (rest.length = 5) &&
      ((pyIsAlpha (rest.take 1) && pyIsDigit (rest.drop 1)) ||
       (pyIsAlpha (rest.take 2) && pyIsDigit (rest.drop 2)) ||
       (pyIsAlpha (rest.take 3) && pyIsDigit (rest.drop 3)))) ||
   (decide (rest.length = 6) &&
      ((pyIsAlpha (rest.take 2) && pyIsDigit (rest.drop 2)) ||
       (pyIsAlpha (rest.take 3) && pyIsDigit (rest.drop 3)))) ||
   (decide (rest.length = 7) &&
      (pyIsAlpha (rest.take 3) && pyIsDigit (rest.drop 3))))

/-- Model of `LicensePlateProcessor.license_complies_format_flexible`, line by line:
strip spaces, require the first two characters to be digits
(`text[:2].isdigit()`), then accept only the listed letter/digit splits of
the remainder, depending on its length. -/
def license_complies_format_flexible (text : List Char) : Bool :=
  let t := removeSpaces text
  if t.isEmpty || !pyIsDigit (t.take 2) then false
  else flexTail (t.drop 2)

/-- Declarative reading of the flexible grammar, from the spec's words:
after removing spaces, 2 digits, then a run of letters followed by a run
of digits whose lengths obey: total 5 → 1, 2 or 3 letters; total 6 → 2 or
3 letters; total 7 → exactly 3 letters. -/
def FlexSpec (text : List Char) : Prop :=
  ∃ d L D, removeSpaces text = d ++ (L ++ D) ∧ d.length = 2 ∧
    (∀ c ∈ d, isDigit09 c = true) ∧ (∀ c ∈ L, isAlphaAZ c = true) ∧
    (∀ c ∈ D, isDigit09 c = true) ∧
    ((L.length + D.length = 5 ∧ (L.length = 1 ∨ L.length = 2 ∨ L.length = 3)) ∨
     (L.length + D.length = 6 ∧ (L.length = 2 ∨ L.length = 3)) ∨
     (L.length + D.length = 7 ∧ L.length = 3))

theorem alpha_digit_split (rest : List Char) (k : Nat) :
    (pyIsAlpha (rest.take k) = true ∧ pyIsDigit (rest.drop k) = true) ↔
      ∃ L D, rest = L ++ D ∧ L.length = k ∧ L ≠ [] ∧ D ≠ [] ∧
        (∀ c ∈ L, isAlphaAZ c = true) ∧ (∀ c ∈ D, isDigit09 c = true) := by
  constructor
  · rintro ⟨hA, hD⟩
    rw [pyIsAlpha, Bool.and_eq_true, List.all_eq_true] at hA
    rw [pyIsDigit, Bool.and_eq_true, List.all_eq_true] at hD
    have hAne : rest.take k ≠ [] := by
      intro h
      rw [h] at hA
      simp at hA
    have hDne : rest.drop k ≠ [] := by
      intro h
      rw [h] at hD
      simp at hD
    have hklt : k < rest.length := by
      by_contra hge
      exact hDne (List.drop_eq_nil_of_le (by omega))
    refine ⟨rest.take k, rest.drop k, (List.take_append_drop k rest).symm,
      ?_, hAne, hDne, hA.2, hD.2⟩
    rw [List.length_take]
    omega
  · rintro ⟨L, D, rfl, hlen, hLne, hDne, hL, hD⟩
    have htake : (L ++ D).take k = L := List.take_left' hlen
    have hdrop : (L ++ D).drop k = D := List.drop_left' hlen
    rw [htake, hdrop]
    constructor
    · rw [pyIsAlpha, Bool.and_eq_true, List.all_eq_true]
      refine ⟨?_, hL⟩
      simp [List.isEmpty_iff, hLne]
    · rw [pyIsDigit, Bool.and_eq_true, List.all_eq_true]
      refine ⟨?_, hD⟩
      simp [List.isEmpty_iff, hDne]

theorem flexTail_iff (rest : List Char) :
    flexTail rest = true ↔
      ∃ L D, rest = L ++ D ∧
        (∀ c ∈ L, isAlphaAZ c = true) ∧ (∀ c ∈ D, isDigit09 c = true) ∧
        ((L.length + D.length = 5 ∧ (L.length = 1 ∨ L.length = 2 ∨ L.length = 3)) ∨
         (L.length + D.length = 6 ∧ (L.length = 2 ∨ L.length = 3)) ∨
         (L.length + D.length = 7 ∧ L.length = 3)) := by
  unfold flexTail
  simp only [Bool.and_eq_true, Bool.or_eq_true, decide_eq_true_eq, or_assoc]
  constructor
  · rintro ⟨⟨h5, h7⟩, hcases⟩
    rcases hcases with ⟨hl, hsp⟩ | ⟨hl, hsp⟩ | ⟨hl, hsp⟩
    · rcases hsp with hs | hs | hs
      · obtain ⟨L, D, hLD, hk, _, _, hL, hD⟩ := (alpha_digit_split rest 1).mp hs
        have := congrArg List.length hLD
        rw [List.length_append] at this
        exact ⟨L, D, hLD, hL, hD, Or.inl ⟨by omega, Or.inl hk⟩⟩
      · obtain ⟨L, D, hLD, hk, _, _, hL, hD⟩ := (alpha_digit_split rest 2).mp hs
        have := congrArg List.length hLD
        rw [List.length_append] at this
        exact ⟨L, D, hLD, hL, hD, Or.inl ⟨by omega, Or.inr (Or.inl hk)⟩⟩
      · obtain ⟨L, D, hLD, hk, _, _, hL, hD⟩ := (alpha_digit_split rest 3).mp hs
        have := congrArg List.length hLD
        rw [List.length_append] at this
        exact ⟨L, D, hLD, hL, hD, Or.inl ⟨by omega, Or.inr (Or.inr hk)⟩⟩
    · rcases hsp with hs | hs
      · obtain ⟨L, D, hLD, hk, _, _, hL, hD⟩ := (alpha_digit_split rest 2).mp hs
        have := congrArg List.length hLD
        rw [List.length_append] at this
        exact ⟨L, D, hLD, hL, hD, Or.inr (Or.inl ⟨by omega, Or.inl hk⟩)⟩
      · obtain ⟨L, D, hLD, hk, _, _, hL, hD⟩ := (alpha_digit_split rest 3).mp hs
        have := congrArg List.length hLD
        rw [List.length_append] at this
        exact ⟨L, D, hLD, hL, hD, Or.inr (Or.inl ⟨by omega, Or.inr hk⟩)⟩
    · obtain ⟨L, D, hLD, hk, _, _, hL, hD⟩ := (alpha_digit_split rest 3).mp hsp
      have := congrArg List.length hLD
      rw [List.length_append] at this
      exact ⟨L, D, hLD, hL, hD, Or.inr (Or.inr ⟨by omega, hk⟩)⟩
  · rintro ⟨L, D, hLD, hL, hD, hsplit⟩
    have hrl : rest.length = L.length + D.length := by
      rw [hLD, List.length_append]
    have hsub : ∀ k, L.length = k → 1 ≤ k → 1 ≤ D.length →
        (pyIsAlpha (rest.take k) = true ∧ pyIsDigit (rest.drop k) = true) := by
      intro k hk hk1 hD1
      refine (alpha_digit_split rest k).mpr ⟨L, D, hLD, hk, ?_, ?_, hL, hD⟩
      · intro h
        rw [h] at hk
        simp at hk
        omega
      · intro h
        rw [h] at hD1
        simp at hD1
    rcases hsplit with ⟨hsum, hk | hk | hk⟩ | ⟨hsum, hk | hk⟩ | ⟨hsum, hk⟩
    · exact ⟨⟨by omega, by omega⟩,
        Or.inl ⟨by omega, Or.inl (hsub 1 hk (by omega) (by omega))⟩⟩
    · exact ⟨⟨by omega, by omega⟩,
        Or.inl ⟨by omega, Or.inr (Or.inl (hsub 2 hk (by omega) (by omega)))⟩⟩
    · exact ⟨⟨by omega, by omega⟩,
        Or.inl ⟨by omega, Or.inr (Or.inr (hsub 3 hk (by omega) (by omega)))⟩⟩
    · exact ⟨⟨by omega, by omega⟩,
        Or.inr (Or.inl ⟨by omega, Or.inl (hsub 2 hk (by omega) (by omega))⟩)⟩
    · exact ⟨⟨by omega, by omega⟩,
        Or.inr (Or.inl ⟨by omega, Or.inr (hsub 3 hk (by omega) (by omega))⟩)⟩
    · exact ⟨⟨by omega, by omega⟩,
        Or.inr (Or.inr ⟨by omega, hsub 3 hk (by omega) (by omega)⟩)⟩

/-- Claim C5.  `license_complies_format_flexible t` is true iff, after
removing spaces, `t` is 2 digits followed by a letter run and a digit run
whose lengths form one of the splits 5→(1|2|3 letters), 6→(2|3 letters),
7→(3 letters); empty input is rejected. -/
theorem C5_flexible_format_characterisation (text : List Char) :
    license_complies_format_flexible text = true ↔ FlexSpec text := by
  unfold license_complies_format_flexible
  set t := removeSpaces text with ht
  by_cases hgate : t.isEmpty || !pyIsDigit (t.take 2)
  · rw [if_pos hgate]
    refine iff_of_false (by simp) ?_
    rintro ⟨d, L, D, heq, hd2, hdig, hL, hD, hsplit⟩
    rw [← ht] at heq
    rw [Bool.or_eq_true] at hgate
    rcases hgate with hemp | hnd
    · rw [List.isEmpty_iff] at hemp
      rw [hemp] at heq
      cases d with
      | nil => simp at hd2
      | cons a d' => simp at heq
    · have htake : t.take 2 = d := by
        rw [heq]
        exact List.take_left' hd2
      rw [Bool.not_eq_true', htake, pyIsDigit, Bool.and_eq_false_iff] at hnd
      rcases hnd with hne2 | hall
      · simp only [Bool.not_eq_false', List.isEmpty_iff] at hne2
        rw [hne2] at hd2
        simp at hd2
      · rw [List.all_eq_false] at hall
        obtain ⟨c, hc, hcf⟩ := hall
        rw [hdig c hc] at hcf
        simp at hcf
  · rw [if_neg hgate]
    simp only [Bool.or_eq_true, not_or, Bool.not_eq_true, Bool.not_eq_false'] at hgate
    obtain ⟨hne, hdig2⟩ := hgate
    rw [pyIsDigit, Bool.and_eq_true, List.all_eq_true] at hdig2
    rw [flexTail_iff]
    constructor
    · rintro ⟨L, D, hLD, hL, hD, hsplit⟩
      have hsum5 : 5 ≤ L.length + D.length := by
        rcases hsplit with ⟨h, _⟩ | ⟨h, _⟩ | ⟨h, _⟩ <;> omega
      have hdl : (t.drop 2).length = L.length + D.length := by
        rw [hLD, List.length_append]
      have h1 : (t.drop 2).length = t.length - 2 := List.length_drop 2 t
      have hlen2 : (t.take 2).length = 2 := by
        rw [List.length_take]
        omega
      refine ⟨t.take 2, L, D, ?_, hlen2, hdig2.2, hL, hD, hsplit⟩
      rw [← ht, ← hLD, List.take_append_drop]
    · rintro ⟨d, L, D, heq, hd2, hdd, hL, hD, hsplit⟩
      rw [← ht] at heq
      have hdrop : t.drop 2 = L ++ D := by
        rw [heq]
        exact List.drop_left' hd2
      exact ⟨L, D, hdrop, hL, hD, hsplit⟩

/-!
## `LicensePlateProcessor.generate_possible_plates`

The Python dictionary `self.ocr_alternatives`; lookups are made with
`char.upper()`, so the lowercase key `'l'` (whose value list contains a
duplicate) is unreachable — `toUpper` never returns a lowercase letter.
-/

/-- The `ocr_alternatives` dictionary of `LicensePlateProcessor.__init__`. -/
def ocr_alternatives : Char → Option (List Char)
  | 'O' => some ['D', '0', 'O']
  | 'I' => some ['1', 'I']
  | 'l' => some ['1', 'l', '1']
  | 'J' => some ['3', 'J']
  | 'A' => some ['4', 'A']
  | 'G' => some ['6', 'G']
  | 'S' => some ['5', 'S']
  | 'B' => some ['8', 'B']
  | 'Z' => some ['2', 'Z']
  | '0' => some ['D', '0', 'O']
  | '1' => some ['1', 'I', 'l']
  | '3' => some ['3', 'J']
  | '4' => some ['4', 'A']
  | '6' => some ['6', 'G']
  | '5' => some ['5', 'S']
  | '8' => some ['8', 'B']
  | '2' => some ['2', 'Z']
  | 'D' => some ['O', 'D']
  | 'T' => some ['T', '1']
  | 'N' => some ['N']
  | 'K' => some ['K']
  | 'R' => some ['R']
  | 'V' => some ['V']
  | _ => none

/-- Model of `self.ocr_alternatives.get(char.upper(), [char.upper()])`. -/
def altsFor (c : Char) : List Char :=
  (ocr_alternatives c.toUpper).getD [c.toUpper]

/-- The list comprehension
`[self.ocr_alternatives.get(char.upper(), [char.upper()]) for char in raw_plate]`. -/
def alternatives_per_char (raw : List Char) : List (List Char) :=
  raw.map altsFor

/-- Model of `itertools.product(*alternatives_per_char)`: pick one element from each
list, first position outermost. -/
def cartProd : List (List Char) → List (List Char)
  | [] => [[]]
  | xs :: rest => xs.flatMap (fun x => (cartProd rest).map (fun l => x :: l))

/-- Model of `LicensePlateProcessor.generate_possible_plates` (the generator,
materialised as the list of strings it yields, in yield order). -/
def generate_possible_plates (raw : List Char) : List (List Char) :=
  cartProd (alternatives_per_char raw)

theorem char_ofNat_sub32_ne_l (n : Nat) (h1 : 97 ≤ n) (h2 : n ≤ 122) :
    Char.ofNat (n - 32) ≠ 'l' := by
  interval_cases n <;> decide

theorem char_ofNat_sub32_fixed (n : Nat) (h1 : 97 ≤ n) (h2 : n ≤ 122) :
    (Char.ofNat (n - 32)).toUpper = Char.ofNat (n - 32) := by
  interval_cases n <;> decide

/-- Key fact: `char.upper()` never returns the lowercase letter `l`, so the dead
dictionary key `'l'` is unreachable. -/
theorem toUpper_ne_l (c : Char) : c.toUpper ≠ 'l' := by
  show (if c.toNat ≥ 97 ∧ c.toNat ≤ 122 then Char.ofNat (c.toNat - 32) else c) ≠ 'l'
  by_cases h : c.toNat ≥ 97 ∧ c.toNat ≤ 122
  · rw [if_pos h]
    exact char_ofNat_sub32_ne_l _ h.1 h.2
  · rw [if_neg h]
    intro hc
    apply h
    rw [hc]
    exact ⟨by decide, by decide⟩

/-- Idempotence of `Char.toUpper`. -/
theorem toUpper_idem (c : Char) : c.toUpper.toUpper = c.toUpper := by
  show (if c.toNat ≥ 97 ∧ c.toNat ≤ 122 then Char.ofNat (c.toNat - 32) else c).toUpper
      = (if c.toNat ≥ 97 ∧ c.toNat ≤ 122 then Char.ofNat (c.toNat - 32) else c)
  by_cases h : c.toNat ≥ 97 ∧ c.toNat ≤ 122
  · rw [if_pos h]
    exact char_ofNat_sub32_fixed _ h.1 h.2
  · rw [if_neg h]
    show (if c.toNat ≥ 97 ∧ c.toNat ≤ 122 then Char.ofNat (c.toNat - 32) else c) = c
    rw [if_neg h]

/-- Every alternative list actually reachable through `char.upper()` lookup
has pairwise-distinct entries. -/
theorem altsFor_nodup (c : Char) : (altsFor c).Nodup := by
  unfold altsFor
  cases h : ocr_alternatives c.toUpper with
  | none => simp
  | some L =>
      simp only [Option.getD_some]
      unfold ocr_alternatives at h
      split at h
      all_goals try (cases h)
      all_goals try decide
      rename_i heq
      exact absurd heq (toUpper_ne_l c)

theorem mem_cartProd (Ls : List (List Char)) (l : List Char) :
    l ∈ cartProd Ls ↔ List.Forall₂ (fun c L => c ∈ L) l Ls := by
  induction Ls generalizing l with
  | nil =>
      simp only [cartProd, List.mem_singleton, List.forall₂_nil_right_iff]
  | cons xs rest ih =>
      simp only [cartProd, List.mem_flatMap, List.mem_map]
      constructor
      · rintro ⟨x, hx, l', hl', rfl⟩
        exact List.Forall₂.cons hx ((ih l').mp hl')
      · intro h
        cases h with
        | cons hx hrest => exact ⟨_, hx, _, (ih _).mpr hrest, rfl⟩

theorem length_flatMap_map_cons (xs : List Char) (M : List (List Char)) :
    (xs.flatMap (fun x => M.map (fun l => x :: l))).length = xs.length * M.length := by
  induction xs with
  | nil => simp
  | cons x xs ih =>
      rw [List.flatMap_cons, List.length_append, List.length_map, ih,
        List.length_cons]
      ring

theorem length_cartProd (Ls : List (List Char)) :
    (cartProd Ls).length = (Ls.map List.length).prod := by
  induction Ls with
  | nil => simp [cartProd]
  | cons xs rest ih =>
      rw [List.map_cons, List.prod_cons, ← ih]
      exact length_flatMap_map_cons xs (cartProd rest)

theorem nodup_cartProd (Ls : List (List Char)) (h : ∀ L ∈ Ls, L.Nodup) :
    (cartProd Ls).Nodup := by
  induction Ls with
  | nil => simp [cartProd]
  | cons xs rest ih =>
      rw [cartProd, List.nodup_flatMap]
      constructor
      · intro x _
        exact (ih (fun L hL => h L (by simp [hL]))).map List.cons_injective
      · have hxs : xs.Nodup := h xs (by simp)
        refine hxs.imp ?_
        intro a b hab
        intro l hla hlb
        rw [List.mem_map] at hla hlb
        obtain ⟨la, _, rfl⟩ := hla
        obtain ⟨lb, _, hlb⟩ := hlb
        exact hab (List.head_eq_of_cons_eq hlb.symm)

/-- Claim C6.  `generate_possible_plates` yields exactly `∏ kᵢ` strings
(`kᵢ` the size of the alternative set at position `i`), all pairwise
distinct and of the input's length, and they are precisely the Cartesian
product: the strings obtained by picking one alternative per position.
Every alternative list used has pairwise-distinct entries, so its length
is its size as a set. -/
theorem C6_generate_possible_plates (raw : List Char) :
    (generate_possible_plates raw).length
        = ((alternatives_per_char raw).map List.length).prod ∧
      (∀ s ∈ generate_possible_plates raw, s.length = raw.length) ∧
      (generate_possible_plates raw).Nodup ∧
      (∀ s, s ∈ generate_possible_plates raw ↔
        List.Forall₂ (fun c L => c ∈ L) s (alternatives_per_char raw)) ∧
      (∀ L ∈ alternatives_per_char raw, L.Nodup) := by
  refine ⟨length_cartProd _, ?_, ?_, fun s => mem_cartProd _ s, ?_⟩
  · intro s hs
    have := ((mem_cartProd _ s).mp hs).length_eq
    rw [this]
    exact List.length_map raw altsFor
  · refine nodup_cartProd _ ?_
    intro L hL
    rw [alternatives_per_char, List.mem_map] at hL
    obtain ⟨c, _, rfl⟩ := hL
    exact altsFor_nodup c
  · intro L hL
    rw [alternatives_per_char, List.mem_map] at hL
    obtain ⟨c, _, rfl⟩ := hL
    exact altsFor_nodup c

/-!
## `LicensePlateProcessor.calculate_edit_distance`

The source computes the case-insensitive Levenshtein distance with the
classic two-row dynamic programme (`previous_row` / `current_row`), after
swapping the arguments once so the longer string comes first.  We embed
the row loop faithfully (`lrow` / `distRows`) and also define a reference
recursive Levenshtein `lev` (structurally recursive so that it evaluates
on concrete inputs); `distRows_getLastD` proves the two agree.
-/

/-- Substitution cost `(c1.upper() != c2.upper())` — `True` counts as 1. -/
def cost (a b : Char) : Nat := if a.toUpper = b.toUpper then 0 else 1

/-- Helper making the textbook Levenshtein recursion structural: `levS`
is the already-constructed distance function for the tail `s'`. -/
def levAux (s' : List Char) (a : Char) (levS : List Char → Nat) : List Char → Nat
  | [] => s'.length + 1
  | b :: t' =>
      min (levS (b :: t') + 1)
        (min (levAux s' a levS t' + 1) (levS t' + cost a b))

/-- Reference case-insensitive Levenshtein distance, textbook recursion. -/
def lev : List Char → List Char → Nat
  | [] => fun t => t.length
  | a :: s' => levAux s' a (lev s')

theorem lev_nil_left (t : List Char) : lev [] t = t.length := rfl

theorem lev_cons_nil (a : Char) (s : List Char) : lev (a :: s) [] = s.length + 1 := rfl

theorem lev_cons_cons (a : Char) (s : List Char) (b : Char) (t : List Char) :
    lev (a :: s) (b :: t) =
      min (lev s (b :: t) + 1) (min (lev (a :: s) t + 1) (lev s t + cost a b)) := rfl

theorem lev_nil_right (s : List Char) : lev s [] = s.length := by
  cases s with
  | nil => rfl
  | cons a s => rfl

theorem cost_self (a : Char) : cost a a = 0 := by simp [cost]

theorem cost_comm (a b : Char) : cost a b = cost b a := by
  simp [cost, eq_comm]

theorem cost_toUpper_left (a b : Char) : cost a.toUpper b = cost a b := by
  simp [cost, toUpper_idem]

theorem lev_self (s : List Char) : lev s s = 0 := by
  induction s with
  | nil => rfl
  | cons a s ih =>
      rw [lev_cons_cons, ih, cost_self]
      omega

theorem lev_symm (s : List Char) : ∀ t, lev s t = lev t s := by
  induction s with
  | nil =>
      intro t
      rw [lev_nil_left, lev_nil_right]
  | cons a s ih =>
      intro t
      induction t with
      | nil =>
          rw [lev_nil_left, lev_cons_nil, List.length_cons]
      | cons b t iht =>
          rw [lev_cons_cons, lev_cons_cons, ih (b :: t), iht, ih t, cost_comm]
          omega

theorem lev_pyUpper_left (s : List Char) : ∀ t, lev (pyUpper s) t = lev s t := by
  induction s with
  | nil => intro t; rfl
  | cons a s ih =>
      intro t
      simp only [pyUpper] at ih ⊢
      rw [List.map_cons]
      induction t with
      | nil =>
          rw [lev_cons_nil, lev_cons_nil, List.length_map]
      | cons b t iht =>
          rw [lev_cons_cons, lev_cons_cons, ih (b :: t), iht, ih t,
            cost_toUpper_left]

theorem lev_eq_zero_of_equiv {s t : List Char}
    (h : List.Forall₂ (fun a b => a.toUpper = b.toUpper) s t) : lev s t = 0 := by
  induction h with
  | nil => rfl
  | cons hab _ ih =>
      rw [lev_cons_cons, ih, cost, if_pos hab]
      omega

/-- The inner loop `for j, c2 in enumerate(s2)` of the row update: walks
the remaining characters of `s2` together with the remaining entries of
`previous_row` (`p0 = previous_row[j]`, `p1 = previous_row[j+1]`), `cur`
being the last entry appended to `current_row`; returns the appended
entries. -/
def lrow (c1 : Char) : List Char → List Nat → Nat → List Nat
  | b :: t, p0 :: p1 :: ps, cur =>
      min (p1 + 1) (min (cur + 1) (p0 + cost c1 b)) ::
        lrow c1 t (p1 :: ps) (min (p1 + 1) (min (cur + 1) (p0 + cost c1 b)))
  | _, _, _ => []

/-- The outer loop `for i, c1 in enumerate(s1)`: starts from
`previous_row = range(len(s2)+1)`, each iteration builds
`current_row = [i+1] ++ …`; returns the final `previous_row`. -/
def distRows (s1 s2 : List Char) : List Nat :=
  (s1.foldl
    (fun (acc : List Nat × Nat) c1 =>
      ((acc.2 + 1) :: lrow c1 s2 acc.1 (acc.2 + 1), acc.2 + 1))
    (List.range (s2.length + 1), 0)).1

/-- Model of `LicensePlateProcessor.calculate_edit_distance`.  The Python function
recurses once to put the longer string first (`if len(s1) < len(s2):
return self.calculate_edit_distance(s2, s1)`); that single swapped call is
inlined here, which also makes the definition structurally terminating.
`previous_row[-1]` is modelled by `getLastD … 0` (the row is never
empty). -/
def calculate_edit_distance (s1 s2 : List Char) : Nat :=
  if s1.length < s2.length then
    if s1.length = 0 then s2.length else (distRows s2 s1).getLastD 0
  else if s2.length = 0 then s1.length
  else (distRows s1 s2).getLastD 0

/-- Row of prefix distances in reversed-prefix form: entry `j` is
`lev u v'` where `v'` runs over `v`, then `v` extended by successive
characters of `t`. -/
def rowTail (u : List Char) : List Char → List Char → List Nat
  | v, [] => [lev u v]
  | v, b :: t => lev u v :: rowTail u (b :: v) t

theorem getLastD_cons_eq (a d : Nat) (l : List Nat) :
    (a :: l).getLastD d = l.getLastD a := by
  cases l with
  | nil => rfl
  | cons b l =>
      rw [List.getLastD_eq_getLast?, List.getLastD_eq_getLast?,
        List.getLast?_cons_cons,
        List.getLast?_eq_getLast (b :: l) (by simp)]
      rfl

theorem lrow_spec (c1 : Char) : ∀ (t : List Char) (b : Char) (v u : List Char),
    lrow c1 (b :: t) (rowTail u v (b :: t)) (lev (c1 :: u) v) =
      rowTail (c1 :: u) (b :: v) t := by
  intro t
  induction t with
  | nil =>
      intro b v u
      rfl
  | cons b2 t2 ih =>
      intro b v u
      exact congrArg (fun r => lev (c1 :: u) (b :: v) :: r) (ih b2 (b :: v) u)

theorem lrow_full (c1 : Char) (u s2 : List Char) :
    (lev (c1 :: u) []) :: lrow c1 s2 (rowTail u [] s2) (lev (c1 :: u) []) =
      rowTail (c1 :: u) [] s2 := by
  cases s2 with
  | nil => rfl
  | cons b t =>
      rw [lrow_spec c1 t b [] u]
      rfl

theorem rowTail_nil_left : ∀ (t v : List Char),
    rowTail [] v t = (List.range (t.length + 1)).map (fun j => v.length + j) := by
  intro t
  induction t with
  | nil =>
      intro v
      have h1 : List.range 1 = [0] := rfl
      simp [rowTail, lev_nil_left, h1]
  | cons b t ih =>
      intro v
      conv_rhs => rw [List.length_cons, List.range_succ_eq_map, List.map_cons,
        List.map_map]
      simp only [rowTail, lev_nil_left]
      rw [ih (b :: v)]
      congr 1 <;> (try simp) <;> (try (intro a ha; omega))

theorem initial_row (s2 : List Char) :
    List.range (s2.length + 1) = rowTail [] [] s2 := by
  rw [rowTail_nil_left s2 []]
  simp

theorem distRows_fold (s2 : List Char) : ∀ (rest u : List Char),
    rest.foldl
      (fun (acc : List Nat × Nat) c1 =>
        ((acc.2 + 1) :: lrow c1 s2 acc.1 (acc.2 + 1), acc.2 + 1))
      (rowTail u [] s2, u.length)
    = (rowTail (rest.reverse ++ u) [] s2, (rest.reverse ++ u).length) := by
  intro rest
  induction rest with
  | nil =>
      intro u
      simp
  | cons c1 rest ih =>
      intro u
      rw [List.foldl_cons]
      have hpair :
          ((u.length + 1) :: lrow c1 s2 (rowTail u [] s2) (u.length + 1),
            u.length + 1)
          = (rowTail (c1 :: u) [] s2, (c1 :: u).length) := by
        have h1 : u.length + 1 = lev (c1 :: u) [] := (lev_cons_nil c1 u).symm
        rw [h1, lrow_full, lev_cons_nil, List.length_cons]
      rw [hpair, ih (c1 :: u), List.reverse_cons, List.append_assoc,
        List.singleton_append]

theorem distRows_eq (s1 s2 : List Char) :
    distRows s1 s2 = rowTail s1.reverse [] s2 := by
  have h := distRows_fold s2 s1 []
  simp only [List.length_nil, List.append_nil] at h
  unfold distRows
  rw [initial_row s2]
  exact congrArg Prod.fst h

theorem getLastD_rowTail (u : List Char) : ∀ (t v : List Char) (d : Nat),
    (rowTail u v t).getLastD d = lev u (t.reverse ++ v) := by
  intro t
  induction t with
  | nil =>
      intro v d
      simp [rowTail]
  | cons b t ih =>
      intro v d
      simp only [rowTail]
      rw [getLastD_cons_eq, ih (b :: v) (lev u v), List.reverse_cons,
        List.append_assoc, List.singleton_append]

theorem distRows_getLastD (s1 s2 : List Char) :
    (distRows s1 s2).getLastD 0 = lev s1.reverse s2.reverse := by
  rw [distRows_eq, getLastD_rowTail, List.append_nil]

/-- The row dynamic programme of the source equals the reference
Levenshtein recursion (on the reversed strings; `lev` peels characters
from the left while the rows grow prefixes on the right). -/
theorem calculate_edit_distance_eq_lev (s1 s2 : List Char) :
    calculate_edit_distance s1 s2 = lev s1.reverse s2.reverse := by
  unfold calculate_edit_distance
  by_cases h : s1.length < s2.length
  · rw [if_pos h]
    by_cases h0 : s1.length = 0
    · rw [if_pos h0, List.length_eq_zero.mp h0]
      simp [lev_nil_left]
    · rw [if_neg h0, distRows_getLastD, lev_symm]
  · rw [if_neg h]
    by_cases h0 : s2.length = 0
    · rw [if_pos h0, List.length_eq_zero.mp h0]
      simp [lev_nil_right]
    · rw [if_neg h0, distRows_getLastD]

/-- Claim C8.  The edit distance of the source satisfies
`distance(s, s) = 0`, symmetry, case-insensitivity (two strings equal up
to letter case are at distance 0), and in particular
`distance("ab", "AB") = 0`. -/
theorem C8_edit_distance_properties :
    (∀ s, calculate_edit_distance s s = 0) ∧
      (∀ a b, calculate_edit_distance a b = calculate_edit_distance b a) ∧
      (∀ a b, List.Forall₂ (fun c d => c.toUpper = d.toUpper) a b →
        calculate_edit_distance a b = 0) ∧
      calculate_edit_distance ('a' :: 'b' :: []) ('A' :: 'B' :: []) = 0 := by
  refine ⟨?_, ?_, ?_, ?_⟩
  · intro s
    rw [calculate_edit_distance_eq_lev]
    exact lev_self s.reverse
  · intro a b
    rw [calculate_edit_distance_eq_lev, calculate_edit_distance_eq_lev]
    exact lev_symm a.reverse b.reverse
  · intro a b hab
    rw [calculate_edit_distance_eq_lev]
    exact lev_eq_zero_of_equiv (List.rel_reverse hab)
  · decide

/-- Witness for claim C8 at `"ab"` / `"AB"`, discharging the equal-up-to-case
hypothesis concretely. -/
theorem C8_edit_distance_properties_witness :
    calculate_edit_distance ('a' :: 'b' :: []) ('A' :: 'B' :: []) = 0 :=
  C8_edit_distance_properties.2.2.1 _ _
    (List.Forall₂.cons (by decide)
      (List.Forall₂.cons (by decide) List.Forall₂.nil))

/-!
## `LicensePlateProcessor.try_correct_plate_smart`
-/

/-- Model of `LicensePlateProcessor.try_correct_plate_smart`: collect the generated
candidates that pass `check_plate_format`; if none, return the raw string;
otherwise Python's `min(valid_plates, key=…)` — the first element of
minimal key, keyed by edit distance between `raw_plate.upper()` and the
candidate — here written as its defining left fold. -/
def try_correct_plate_smart (raw : List Char) : List Char :=
  match (generate_possible_plates raw).filter check_plate_format with
  | [] => raw
  | x :: xs =>
      xs.foldl (fun best p =>
        if calculate_edit_distance (pyUpper raw) p <
            calculate_edit_distance (pyUpper raw) best then p else best) x

/-- Python `min(x :: xs, key = f)`: the result is an element of the list,
no element has a strictly smaller key, and every element *before* it in
the list has a strictly larger key (first minimum wins). -/
theorem foldl_min_spec (f : List Char → Nat) (xs : List (List Char)) :
    ∀ x : List Char,
      ∃ pre post,
        x :: xs = pre ++ (xs.foldl (fun best p => if f p < f best then p else best) x) :: post ∧
        (∀ y ∈ x :: xs, f (xs.foldl (fun best p => if f p < f best then p else best) x) ≤ f y) ∧
        (∀ y ∈ pre, f (xs.foldl (fun best p => if f p < f best then p else best) x) < f y) := by
  induction xs with
  | nil =>
      intro x
      refine ⟨[], [], rfl, ?_, by simp⟩
      intro y hy
      rw [List.mem_singleton] at hy
      subst hy
      exact le_refl _
  | cons y xs ih =>
      intro x
      rw [List.foldl_cons]
      by_cases h : f y < f x
      · rw [if_pos h]
        obtain ⟨pre, post, hdec, hmin, hpre⟩ := ih y
        refine ⟨x :: pre, post, by rw [List.cons_append, ← hdec], ?_, ?_⟩
        · intro z hz
          rw [List.mem_cons] at hz
          rcases hz with rfl | hz
          · exact le_of_lt (lt_of_le_of_lt (hmin y (by simp)) h)
          · exact hmin z hz
        · intro z hz
          rw [List.mem_cons] at hz
          rcases hz with rfl | hz
          · exact lt_of_le_of_lt (hmin y (by simp)) h
          · exact hpre z hz
      · rw [if_neg h]
        have hxy : f x ≤ f y := le_of_not_lt h
        obtain ⟨pre, post, hdec, hmin, hpre⟩ := ih x
        cases pre with
        | nil =>
            rw [List.nil_append] at hdec
            have hx : x = xs.foldl (fun best p => if f p < f best then p else best) x :=
              List.head_eq_of_cons_eq hdec
            have hxs : xs = post := List.tail_eq_of_cons_eq hdec
            refine ⟨[], y :: xs, by rw [List.nil_append, ← hx], ?_, by simp⟩
            intro z hz
            rw [List.mem_cons] at hz
            rcases hz with rfl | hz
            · rw [← hx]
            · rw [List.mem_cons] at hz
              rcases hz with rfl | hz
              · rw [← hx]
                exact hxy
              · exact hmin z (by simp [hz])
        | cons p pre2 =>
            rw [List.cons_append] at hdec
            have hp : x = p := List.head_eq_of_cons_eq hdec
            have hxs : xs = pre2 ++ xs.foldl (fun best p => if f p < f best then p else best) x :: post :=
              List.tail_eq_of_cons_eq hdec
            have hmx : f (xs.foldl (fun best p => if f p < f best then p else best) x) < f x := by
              have h2 := hpre p (by simp)
              rw [← hp] at h2
              exact h2
            refine ⟨x :: y :: pre2, post, ?_, ?_, ?_⟩
            · rw [List.cons_append, List.cons_append, ← hxs]
            · intro z hz
              rw [List.mem_cons] at hz
              rcases hz with rfl | hz
              · exact le_of_lt hmx
              · rw [List.mem_cons] at hz
                rcases hz with rfl | hz
                · exact le_trans (le_of_lt hmx) hxy
                · exact hmin z (by simp [hz])
            · intro z hz
              rw [List.mem_cons] at hz
              rcases hz with rfl | hz
              · exact hmx
              · rw [List.mem_cons] at hz
                rcases hz with rfl | hz
                · exact lt_of_lt_of_le hmx hxy
                · exact hpre z (by simp [hz])

/-- Uppercasing the first argument does not change the (already
case-insensitive) edit distance. -/
theorem calculate_edit_distance_pyUpper_left (s t : List Char) :
    calculate_edit_distance (pyUpper s) t = calculate_edit_distance s t := by
  rw [calculate_edit_distance_eq_lev, calculate_edit_distance_eq_lev, pyUpper,
    ← List.map_reverse, ← pyUpper, lev_pyUpper_left]

/-- Claim C2.  If no generated candidate passes the strict predicate,
`try_correct_plate_smart` returns the raw string unchanged; otherwise it
returns a generated candidate that passes the strict predicate, whose
case-insensitive edit distance to the raw string is minimal among all
passing candidates, and every passing candidate generated before it is
strictly farther — the first minimal candidate in generation order. -/
theorem C2_try_correct_plate_smart (raw : List Char) :
    ((generate_possible_plates raw).filter check_plate_format = [] →
      try_correct_plate_smart raw = raw) ∧
    ((generate_possible_plates raw).filter check_plate_format ≠ [] →
      check_plate_format (try_correct_plate_smart raw) = true ∧
      try_correct_plate_smart raw ∈ generate_possible_plates raw ∧
      ∃ pre post,
        (generate_possible_plates raw).filter check_plate_format
          = pre ++ try_correct_plate_smart raw :: post ∧
        (∀ y ∈ (generate_possible_plates raw).filter check_plate_format,
          calculate_edit_distance raw (try_correct_plate_smart raw)
            ≤ calculate_edit_distance raw y) ∧
        (∀ y ∈ pre,
          calculate_edit_distance raw (try_correct_plate_smart raw)
            < calculate_edit_distance raw y)) := by
  constructor
  · intro h
    simp only [try_correct_plate_smart, h]
  · intro hne
    obtain ⟨x, xs, hvalid⟩ : ∃ x xs,
        (generate_possible_plates raw).filter check_plate_format = x :: xs := by
      cases h : (generate_possible_plates raw).filter check_plate_format with
      | nil => exact absurd h hne
      | cons x xs => exact ⟨x, xs, rfl⟩
    have hm : try_correct_plate_smart raw
        = xs.foldl (fun best p =>
            if calculate_edit_distance (pyUpper raw) p <
                calculate_edit_distance (pyUpper raw) best then p else best) x := by
      simp only [try_correct_plate_smart, hvalid]
    obtain ⟨pre, post, hdec, hmin, hpre⟩ :=
      foldl_min_spec (fun p => calculate_edit_distance (pyUpper raw) p) xs x
    rw [← hm] at hdec hmin hpre
    have hdec2 : (generate_possible_plates raw).filter check_plate_format
        = pre ++ try_correct_plate_smart raw :: post := by
      rw [hvalid, hdec]
    have hmem : try_correct_plate_smart raw
        ∈ (generate_possible_plates raw).filter check_plate_format := by
      rw [hdec2]
      exact List.mem_append_right pre (by simp)
    rw [List.mem_filter] at hmem
    refine ⟨hmem.2, hmem.1, pre, post, hdec2, ?_, ?_⟩
    · intro y hy
      rw [← calculate_edit_distance_pyUpper_left raw
            (try_correct_plate_smart raw),
        ← calculate_edit_distance_pyUpper_left raw y]
      exact hmin y (by rw [hvalid] at hy; exact hy)
    · intro y hy
      rw [← calculate_edit_distance_pyUpper_left raw
            (try_correct_plate_smart raw),
        ← calculate_edit_distance_pyUpper_left raw y]
      exact hpre y hy

/-- Witness for claim C2 at `"07ABC123"` (nonempty candidate set) and at the
single character `"X"` (empty candidate set: `"X"` generates only itself,
which fails the strict predicate, so the raw string is returned). -/
theorem C2_try_correct_plate_smart_witness :
    ((generate_possible_plates ('X' :: [])).filter check_plate_format = [] ∧
      try_correct_plate_smart ('X' :: []) = 'X' :: []) ∧
    ((generate_possible_plates
        ('0' :: '7' :: 'A' :: 'B' :: 'C' :: '1' :: '2' :: '3' :: [])).filter
          check_plate_format ≠ [] ∧
      check_plate_format
        (try_correct_plate_smart
          ('0' :: '7' :: 'A' :: 'B' :: 'C' :: '1' :: '2' :: '3' :: [])) = true) :=
  ⟨⟨by decide,
    (C2_try_correct_plate_smart ('X' :: [])).1 (by decide)⟩,
   ⟨by decide,
    ((C2_try_correct_plate_smart
        ('0' :: '7' :: 'A' :: 'B' :: 'C' :: '1' :: '2' :: '3' :: [])).2
      (by decide)).1⟩⟩

/-!
## `VehicleTracker.get_car` and `LicensePlateRecognition.process_frame`

Bounding-box coordinates, detection scores and track ids are real-valued
(numpy floats); they are modelled as `ℚ` — only comparisons and identity
matter to the verified claims, never rounding.
-/

/-- One detector output `(x1, y1, x2, y2, score, class_id)`. -/
structure Detection where
  x1 : ℚ
  y1 : ℚ
  x2 : ℚ
  y2 : ℚ
  score : ℚ
  class_id : ℚ
deriving DecidableEq

/-- One tracker output `(x1, y1, x2, y2, car_id)`. -/
structure Vehicle where
  x1 : ℚ
  y1 : ℚ
  x2 : ℚ
  y2 : ℚ
  car_id : ℚ
deriving DecidableEq

/-- Model of `VehicleTracker.get_car`: return the first tracked vehicle whose box
strictly contains the plate box, else `None`. -/
def get_car (lp : Detection) : List Vehicle → Option Vehicle
  | [] => none
  | v :: rest =>
      if lp.x1 > v.x1 ∧ lp.y1 > v.y1 ∧ lp.x2 < v.x2 ∧ lp.y2 < v.y2 then some v
      else get_car lp rest

/-- Strict spatial containment of the plate box in a vehicle box. -/
def ContainsBox (v : Vehicle) (lp : Detection) : Prop :=
  lp.x1 > v.x1 ∧ lp.y1 > v.y1 ∧ lp.x2 < v.x2 ∧ lp.y2 < v.y2

theorem get_car_eq_some_iff (lp : Detection) :
    ∀ (vs : List Vehicle) (v : Vehicle),
      get_car lp vs = some v ↔
        ∃ pre post, vs = pre ++ v :: post ∧ ContainsBox v lp ∧
          ∀ u ∈ pre, ¬ ContainsBox u lp := by
  intro vs
  induction vs with
  | nil =>
      intro v
      constructor
      · intro h
        simp [get_car] at h
      · rintro ⟨pre, post, h, _, _⟩
        exact absurd h.symm (List.append_ne_nil_of_right_ne_nil pre (by simp))
  | cons u rest ih =>
      intro v
      by_cases hc : lp.x1 > u.x1 ∧ lp.y1 > u.y1 ∧ lp.x2 < u.x2 ∧ lp.y2 < u.y2
      · rw [get_car, if_pos hc]
        constructor
        · intro h
          rw [Option.some_inj] at h
          exact ⟨[], rest, by rw [h, List.nil_append], h ▸ hc, by simp⟩
        · rintro ⟨pre, post, hdec, hcv, hpre⟩
          cases pre with
          | nil =>
              rw [List.nil_append] at hdec
              rw [List.head_eq_of_cons_eq hdec]
          | cons p pre2 =>
              rw [List.cons_append] at hdec
              have : u = p := List.head_eq_of_cons_eq hdec
              exact absurd (this ▸ hpre p (by simp)) (not_not_intro hc)
      · rw [get_car, if_neg hc]
        rw [ih v]
        constructor
        · rintro ⟨pre, post, hdec, hcv, hpre⟩
          refine ⟨u :: pre, post, by rw [hdec, List.cons_append], hcv, ?_⟩
          intro z hz
          rw [List.mem_cons] at hz
          rcases hz with rfl | hz
          · exact hc
          · exact hpre z hz
        · rintro ⟨pre, post, hdec, hcv, hpre⟩
          cases pre with
          | nil =>
              rw [List.nil_append] at hdec
              have hv : u = v := List.head_eq_of_cons_eq hdec
              exact absurd (hv ▸ hcv) hc
          | cons p pre2 =>
              rw [List.cons_append] at hdec
              exact ⟨pre2, post, List.tail_eq_of_cons_eq hdec,
                hcv, fun z hz => hpre z (by simp [hz])⟩

theorem get_car_eq_none_iff (lp : Detection) :
    ∀ vs : List Vehicle,
      get_car lp vs = none ↔ ∀ v ∈ vs, ¬ ContainsBox v lp := by
  intro vs
  induction vs with
  | nil => simp [get_car]
  | cons u rest ih =>
      by_cases hc : lp.x1 > u.x1 ∧ lp.y1 > u.y1 ∧ lp.x2 < u.x2 ∧ lp.y2 < u.y2
      · rw [get_car, if_pos hc]
        constructor
        · intro h
          exact Option.noConfusion h
        · intro h
          exact absurd hc (h u (by simp))
      · rw [get_car, if_neg hc]
        rw [ih]
        constructor
        · intro h z hz
          rw [List.mem_cons] at hz
          rcases hz with rfl | hz
          · exact hc
          · exact h z hz
        · intro h z hz
          exact h z (by simp [hz])

/-- Claim C7.  `get_car` returns the first track (in iteration order) whose
box strictly contains the plate box, `None` when no track qualifies; a
returned track never shares an edge coordinate with the plate box. -/
theorem C7_get_car (lp : Detection) (vs : List Vehicle) :
    (∀ v, get_car lp vs = some v ↔
        ∃ pre post, vs = pre ++ v :: post ∧ ContainsBox v lp ∧
          ∀ u ∈ pre, ¬ ContainsBox u lp) ∧
      (get_car lp vs = none ↔ ∀ v ∈ vs, ¬ ContainsBox v lp) ∧
      (∀ v, get_car lp vs = some v →
        lp.x1 ≠ v.x1 ∧ lp.y1 ≠ v.y1 ∧ lp.x2 ≠ v.x2 ∧ lp.y2 ≠ v.y2) := by
  refine ⟨fun v => get_car_eq_some_iff lp vs v, get_car_eq_none_iff lp vs, ?_⟩
  intro v h
  obtain ⟨_, _, _, hcv, _⟩ := (get_car_eq_some_iff lp vs v).mp h
  obtain ⟨h1, h2, h3, h4⟩ := hcv
  exact ⟨ne_of_gt h1, ne_of_gt h2, ne_of_lt h3, ne_of_lt h4⟩

/-- The `dict_char_to_int` mapping of `LicensePlateProcessor.__init__`. -/
def dict_char_to_int : Char → Option Char
  | 'O' => some '0'
  | 'I' => some '1'
  | 'J' => some '3'
  | 'A' => some '4'
  | 'G' => some '6'
  | 'S' => some '5'
  | _ => none

/-- Witness for claim C7: a concrete plate box strictly inside a concrete
track box is assigned to it, and shares no edge coordinate with it. -/
theorem C7_get_car_witness :
    (⟨10, 10, 50, 30, 9, 0⟩ : Detection).x1 ≠ (⟨0, 0, 100, 100, 1⟩ : Vehicle).x1 ∧
      (⟨10, 10, 50, 30, 9, 0⟩ : Detection).y1 ≠ (⟨0, 0, 100, 100, 1⟩ : Vehicle).y1 ∧
      (⟨10, 10, 50, 30, 9, 0⟩ : Detection).x2 ≠ (⟨0, 0, 100, 100, 1⟩ : Vehicle).x2 ∧
      (⟨10, 10, 50, 30, 9, 0⟩ : Detection).y2 ≠ (⟨0, 0, 100, 100, 1⟩ : Vehicle).y2 :=
  (C7_get_car ⟨10, 10, 50, 30, 9, 0⟩ [⟨0, 0, 100, 100, 1⟩]).2.2
    ⟨0, 0, 100, 100, 1⟩ (by decide)

/-- Model of `LicensePlateProcessor.format_license_paddle`: uppercase, remove
spaces, then remap the first two characters through `dict_char_to_int`
(characters outside the table are kept). -/
def format_license_paddle (text : List Char) : List Char :=
  (removeSpaces (pyUpper text)).mapIdx
    (fun i c => if i < 2 then (dict_char_to_int c).getD c else c)

/-- Model of `LicensePlateProcessor.read_license_plate`, from the OCR boundary on:
the external OCR engine's per-line `(text, confidence)` results for the
crop are the input (`result[0]`; an absent or empty result is `[]`).  The
image resizing above the OCR call does not affect the returned value. -/
def read_license_plate (lines : List (List Char × ℚ)) : Option (List Char × ℚ) :=
  match lines with
  | [] => none
  | _ :: _ =>
      let texts := lines.map (fun l => removeSpaces (pyUpper l.1))
      let full_text_raw := texts.flatten
      let corrected := try_correct_plate_smart (format_license_paddle full_text_raw)
      let avg_score := (lines.map Prod.snd).sum / (lines.length : ℚ)
      if license_complies_format_flexible corrected then some (corrected, avg_score)
      else none

/-- A row of the per-frame results dictionary
`results[frame_nmr][car_id]`. -/
structure PlateRecord where
  carX1 : ℚ
  carY1 : ℚ
  carX2 : ℚ
  carY2 : ℚ
  plateX1 : ℚ
  plateY1 : ℚ
  plateX2 : ℚ
  plateY2 : ℚ
  text : List Char
  bbox_score : ℚ
  text_score : ℚ
deriving DecidableEq

/-- Model of `LicensePlateRecognition.process_frame`, from the external boundaries
on: `track_ids` is the tracker's output for this frame,
`license_plates` the plate detector's boxes, and `ocr` gives the OCR
engine's line results for the crop of each plate box.  The per-frame
results dictionary `results[frame_nmr]` is modelled as a map from
`car_id` to the stored record; a later plate assigned to the same car
overwrites the earlier entry, as Python dict assignment does. -/
def process_frame (track_ids : List Vehicle) (license_plates : List Detection)
    (ocr : Detection → List (List Char × ℚ)) : ℚ → Option PlateRecord :=
  license_plates.foldl
    (fun res lp =>
      match get_car lp track_ids with
      | none => res
      | some car =>
          match read_license_plate (ocr lp) with
          | none => res
          | some (text, text_score) =>
              fun cid =>
                if cid = car.car_id then
                  some ⟨car.x1, car.y1, car.x2, car.y2, lp.x1, lp.y1, lp.x2,
                    lp.y2, text, lp.score, text_score⟩
                else res cid)
    (fun _ => none)

theorem read_license_plate_some {lines : List (List Char × ℚ)}
    {t : List Char} {sc : ℚ} (h : read_license_plate lines = some (t, sc)) :
    license_complies_format_flexible t = true := by
  match lines with
  | [] => exact Option.noConfusion h
  | l :: ls =>
      rw [read_license_plate] at h
      by_cases hf : license_complies_format_flexible
          (try_correct_plate_smart
            (format_license_paddle ((l :: ls).map (fun l => removeSpaces (pyUpper l.1))).flatten)) = true
      · rw [if_pos hf] at h
        rw [Option.some_inj] at h
        rw [← (Prod.mk.injEq _ _ _ _).mp h |>.1]
        exact hf
      · rw [if_neg hf] at h
        exact Option.noConfusion h

/-- The property every stored record satisfies: it was produced by some
detected plate, spatially matched to the vehicle, whose corrected text
passed the flexible format check. -/
def RecordExplained (track_ids : List Vehicle) (S : List Detection)
    (ocr : Detection → List (List Char × ℚ)) (cid : ℚ) (r : PlateRecord) : Prop :=
  ∃ lp ∈ S, ∃ car,
    get_car lp track_ids = some car ∧ car.car_id = cid ∧
    ContainsBox car lp ∧
    read_license_plate (ocr lp) = some (r.text, r.text_score) ∧
    license_complies_format_flexible r.text = true

theorem process_frame_fold_invariant (track_ids : List Vehicle)
    (ocr : Detection → List (List Char × ℚ)) (S : List Detection) :
    ∀ (rest : List Detection) (acc : ℚ → Option PlateRecord),
      (∀ lp ∈ rest, lp ∈ S) →
      (∀ cid r, acc cid = some r → RecordExplained track_ids S ocr cid r) →
      ∀ cid r,
        (rest.foldl
          (fun res lp =>
            match get_car lp track_ids with
            | none => res
            | some car =>
                match read_license_plate (ocr lp) with
                | none => res
                | some (text, text_score) =>
                    fun cid =>
                      if cid = car.car_id then
                        some ⟨car.x1, car.y1, car.x2, car.y2, lp.x1, lp.y1,
                          lp.x2, lp.y2, text, lp.score, text_score⟩
                      else res cid)
          acc) cid = some r →
        RecordExplained track_ids S ocr cid r := by
  intro rest
  induction rest with
  | nil =>
      intro acc _ hacc cid r h
      exact hacc cid r h
  | cons lp rest ih =>
      intro acc hcov hacc cid r h
      rw [List.foldl_cons] at h
      refine ih _ (fun q hq => hcov q (by simp [hq])) ?_ cid r h
      intro cid2 r2 h2
      match hg : get_car lp track_ids with
      | none =>
          rw [hg] at h2
          exact hacc cid2 r2 h2
      | some car =>
          rw [hg] at h2
          match hr : read_license_plate (ocr lp) with
          | none =>
              rw [hr] at h2
              exact hacc cid2 r2 h2
          | some (text, text_score) =>
              rw [hr] at h2
              simp only [] at h2
              by_cases hid : cid2 = car.car_id
              · rw [if_pos hid] at h2
                rw [Option.some_inj] at h2
                obtain ⟨_, _, _, hcv, _⟩ := (get_car_eq_some_iff lp track_ids car).mp hg
                refine ⟨lp, hcov lp (by simp), car, hg, hid.symm, hcv, ?_, ?_⟩
                · rw [← h2, hr]
                · rw [← h2]
                  exact read_license_plate_some hr
              · rw [if_neg hid] at h2
                exact hacc cid2 r2 h2

/-- Claim C1.  A record is stored in the per-frame results for a vehicle id
only if some detected plate box is strictly contained in that vehicle's
tracked box (first-match spatial assignment) and the corrected text read
from that plate passes the flexible format predicate; the record's text is
exactly that corrected text. -/
theorem C1_process_frame_invariant (track_ids : List Vehicle)
    (plates : List Detection) (ocr : Detection → List (List Char × ℚ))
    (cid : ℚ) (r : PlateRecord)
    (h : process_frame track_ids plates ocr cid = some r) :
    ∃ lp ∈ plates, ∃ car,
      get_car lp track_ids = some car ∧ car.car_id = cid ∧
      ContainsBox car lp ∧
      read_license_plate (ocr lp) = some (r.text, r.text_score) ∧
      license_complies_format_flexible r.text = true := by
  exact process_frame_fold_invariant track_ids ocr plates plates
    (fun _ => none) (fun _ hq => hq) (fun _ _ h2 => Option.noConfusion h2)
    cid r h

/-- Concrete single-track input for the C1 witness. -/
def wTracks : List Vehicle := [⟨0, 0, 100, 100, 1⟩]

/-- Concrete single-plate detection for the C1 witness, strictly inside
the tracked box. -/
def wPlates : List Detection := [⟨10, 10, 50, 30, 9, 0⟩]

/-- OCR oracle for the C1 witness: one line reading `"07ABC123"` with
confidence 1. -/
def wOcr : Detection → List (List Char × ℚ) :=
  fun _ => [(('0' :: '7' :: 'A' :: 'B' :: 'C' :: '1' :: '2' :: '3' :: []), 1)]

/-- The record `process_frame` stores for car id 1 on the witness input. -/
def wRec : PlateRecord :=
  ⟨0, 0, 100, 100, 10, 10, 50, 30,
    '0' :: '7' :: 'A' :: 'B' :: 'C' :: '1' :: '2' :: '3' :: [], 9, 1⟩

/-- Evaluation of `read_license_plate` on a single OCR line: the average confidence is
that line's confidence. -/
theorem read_license_plate_singleton (t : List Char) (sc : ℚ) :
    read_license_plate [(t, sc)] =
      (if license_complies_format_flexible
          (try_correct_plate_smart (format_license_paddle (removeSpaces (pyUpper t))))
        then some (try_correct_plate_smart (format_license_paddle (removeSpaces (pyUpper t))), sc)
        else none) := by
  simp only [read_license_plate, List.map_cons, List.map_nil, List.flatten_cons,
    List.flatten_nil, List.append_nil, List.sum_cons, List.sum_nil, add_zero,
    List.length_cons, List.length_nil, Nat.cast_one, Nat.cast_zero, zero_add,
    div_one]

/-- Evaluation of `process_frame` on the concrete witness input. -/
theorem process_frame_witness_eval :
    process_frame wTracks wPlates wOcr 1 = some wRec := by
  simp only [process_frame, wPlates, wTracks, wOcr, List.foldl_cons, List.foldl_nil]
  rw [show get_car ⟨10, 10, 50, 30, 9, 0⟩ [⟨0, 0, 100, 100, 1⟩]
      = some ⟨0, 0, 100, 100, 1⟩ by decide]
  rw [read_license_plate_singleton]
  rw [if_pos (by decide)]
  decide

/-- Witness for claim C1: on the concrete frame input the stored record is
explained by a spatially matched plate whose text passes the flexible
check. -/
theorem C1_process_frame_invariant_witness :
    ∃ lp ∈ wPlates, ∃ car,
      get_car lp wTracks = some car ∧ car.car_id = 1 ∧ ContainsBox car lp ∧
      read_license_plate (wOcr lp) = some (wRec.text, wRec.text_score) ∧
      license_complies_format_flexible wRec.text = true :=
  C1_process_frame_invariant wTracks wPlates wOcr 1 wRec process_frame_witness_eval

/-!
## `Visualizer._select_best_plate` (temporal consensus)

Only the canonical-text computation is modelled; the representative-crop
extraction below it reads video frames (out of scope) and does not affect
the returned plate text.  Python's stable `sorted(…, reverse=True)` is
modelled by a stable insertion sort; `Counter(…).most_common(1)` by a
first-maximum fold over the keys in first-occurrence order, which is how
CPython's insertion-ordered `Counter` with `heapq.nlargest` breaks ties.
-/

/-- One row of the interpolated results CSV, as consumed by
`_select_best_plate` (frame number and bounding box only feed the crop,
which is out of scope). -/
structure Obs where
  license_number : List Char
  license_number_score : ℚ
deriving DecidableEq

/-- Python `str.isspace` characters relevant to `str.strip()`'s default
(ASCII fragment). -/
def isPyWhitespace (c : Char) : Bool :=
  c = ' ' || c = '\t' || c = '\n' || c = '\r' || c = '\x0b' || c = '\x0c'

/-- Python `s.strip()`: remove leading and trailing whitespace. -/
def pyStrip (s : List Char) : List Char :=
  ((s.dropWhile isPyWhitespace).reverse.dropWhile isPyWhitespace).reverse

/-- Insert an element into a descending-sorted list after every element
with an equal or larger score (stability for later elements). -/
def insertDesc (o : Obs) : List Obs → List Obs
  | [] => [o]
  | x :: xs =>
      if o.license_number_score > x.license_number_score then o :: x :: xs
      else x :: insertDesc o xs

/-- Python `sorted(l, key=lambda x: x['license_number_score'],
reverse=True)`: stable descending sort. -/
def pySortDesc (l : List Obs) : List Obs :=
  l.foldl (fun acc o => insertDesc o acc) []

/-- The distinct values of `l` in order of first occurrence — the key
order of an insertion-ordered `collections.Counter` built from `l`. -/
def firstKeys (l : List (List Char)) : List (List Char) :=
  l.foldl (fun acc k => if k ∈ acc then acc else acc ++ [k]) []

/-- Model of `Counter(l).most_common(1)[0][0]` (as an `Option` for empty `l`): the
first key, in first-occurrence order, of maximal multiplicity. -/
def most_common1 (l : List (List Char)) : Option (List Char) :=
  match firstKeys l with
  | [] => none
  | k :: ks =>
      some (ks.foldl (fun best k2 => if l.count k2 > l.count best then k2 else best) k)

/-- The list comprehension
`[p for p in possible_plates if p['license_number'] != '0' and p['license_number'].strip()]`
(the second conjunct is Python string truthiness of the stripped text). -/
def validPlates (l : List Obs) : List Obs :=
  l.filter (fun p =>
    decide (p.license_number ≠ ('0' :: [])) && !(pyStrip p.license_number).isEmpty)

/-- Model of `Visualizer._select_best_plate` (canonical text only). -/
def select_best_plate (top_n : Nat) (possible_plates : List Obs) : Option (List Char) :=
  if possible_plates.isEmpty then none
  else if (validPlates possible_plates).isEmpty then none
  else
    most_common1
      (((pySortDesc (validPlates possible_plates)).take
          (min top_n (pySortDesc (validPlates possible_plates)).length)).map
        (fun p => p.license_number))

/-- Step 1 of the consensus selector as the claim words it: discard
observations whose corrected text is empty or the sentinel `"0"`. -/
def claimFilter (l : List Obs) : List Obs :=
  l.filter (fun p =>
    decide (p.license_number ≠ []) && decide (p.license_number ≠ ('0' :: [])))

/-- Plurality vote as the claim words it: the most frequent text, with
frequency ties broken by first-encountered order. -/
def claimPlurality (l : List (List Char)) : Option (List Char) :=
  (firstKeys l).find? (fun k => decide (∀ k2 ∈ firstKeys l, l.count k2 ≤ l.count k))

/-- The consensus selector exactly as the claim states it. -/
def claimSelect (top_n : Nat) (obs : List Obs) : Option (List Char) :=
  if (claimFilter obs).isEmpty then none
  else claimPlurality (((pySortDesc (claimFilter obs)).take top_n).map
    (fun p => p.license_number))

/-- Step 1 amended to what the code does: discard observations whose
corrected text is the sentinel `"0"` or consists entirely of whitespace
(in particular, is empty). -/
def amendedFilter (l : List Obs) : List Obs :=
  l.filter (fun p =>
    decide (p.license_number ≠ ('0' :: [])) && !(p.license_number.all isPyWhitespace))

/-- The consensus selector as amended. -/
def amendedSelect (top_n : Nat) (obs : List Obs) : Option (List Char) :=
  if (amendedFilter obs).isEmpty then none
  else claimPlurality (((pySortDesc (amendedFilter obs)).take top_n).map
    (fun p => p.license_number))

theorem dropWhile_isEmpty_eq_all (w : Char → Bool) (t : List Char) :
    (t.dropWhile w).isEmpty = t.all w := by
  induction t with
  | nil => rfl
  | cons a t ih =>
      by_cases ha : w a = true
      · rw [List.dropWhile_cons_of_pos ha, List.all_cons, ha, Bool.true_and, ih]
      · rw [Bool.not_eq_true] at ha
        rw [List.dropWhile_cons_of_neg (by rw [ha]; exact Bool.false_ne_true),
          List.all_cons, ha, Bool.false_and]
        rfl

theorem isEmpty_reverse_chars (l : List Char) : l.reverse.isEmpty = l.isEmpty := by
  cases l with
  | nil => rfl
  | cons a t =>
      have h1 : (a :: t).reverse.isEmpty = false := by
        rw [List.isEmpty_eq_false_iff_exists_mem]
        exact ⟨a, by simp⟩
      rw [h1]
      rfl

theorem dropWhile_all_eq (w : Char → Bool) (t : List Char) :
    (t.dropWhile w).all w = t.all w := by
  induction t with
  | nil => rfl
  | cons a t ih =>
      by_cases ha : w a = true
      · rw [List.dropWhile_cons_of_pos ha, List.all_cons, ha, Bool.true_and, ih]
      · rw [Bool.not_eq_true] at ha
        rw [List.dropWhile_cons_of_neg (by rw [ha]; exact Bool.false_ne_true)]

/-- The stripped text is empty exactly when the original text is entirely
whitespace. -/
theorem pyStrip_isEmpty (t : List Char) :
    (pyStrip t).isEmpty = t.all isPyWhitespace := by
  unfold pyStrip
  rw [isEmpty_reverse_chars, dropWhile_isEmpty_eq_all, List.all_reverse,
    dropWhile_all_eq]

theorem validPlates_eq_amendedFilter (l : List Obs) :
    validPlates l = amendedFilter l := by
  unfold validPlates amendedFilter
  apply List.filter_congr
  intro p _
  rw [pyStrip_isEmpty]

/-- Python `max`-style fold (strictly-greater replaces): the result is in
the list, every element's key is `≤` its key, and every element before it
has a strictly smaller key — the first maximum wins. -/
theorem foldl_max_spec (g : List Char → Nat) (ks : List (List Char)) :
    ∀ k : List Char,
      ∃ pre post,
        k :: ks = pre ++ (ks.foldl (fun best p => if g p > g best then p else best) k) :: post ∧
        (∀ y ∈ k :: ks, g y ≤ g (ks.foldl (fun best p => if g p > g best then p else best) k)) ∧
        (∀ y ∈ pre, g y < g (ks.foldl (fun best p => if g p > g best then p else best) k)) := by
  induction ks with
  | nil =>
      intro k
      refine ⟨[], [], rfl, ?_, by simp⟩
      intro y hy
      rw [List.mem_singleton] at hy
      subst hy
      exact le_refl _
  | cons y ks ih =>
      intro k
      rw [List.foldl_cons]
      by_cases h : g y > g k
      · rw [if_pos h]
        obtain ⟨pre, post, hdec, hmax, hpre⟩ := ih y
        refine ⟨k :: pre, post, by rw [List.cons_append, ← hdec], ?_, ?_⟩
        · intro z hz
          rw [List.mem_cons] at hz
          rcases hz with rfl | hz
          · exact le_of_lt (lt_of_lt_of_le h (hmax y (by simp)))
          · exact hmax z hz
        · intro z hz
          rw [List.mem_cons] at hz
          rcases hz with rfl | hz
          · exact lt_of_lt_of_le h (hmax y (by simp))
          · exact hpre z hz
      · rw [if_neg h]
        have hyk : g y ≤ g k := le_of_not_lt h
        obtain ⟨pre, post, hdec, hmax, hpre⟩ := ih k
        cases pre with
        | nil =>
            rw [List.nil_append] at hdec
            have hk : k = ks.foldl (fun best p => if g p > g best then p else best) k :=
              List.head_eq_of_cons_eq hdec
            refine ⟨[], y :: ks, by rw [List.nil_append, ← hk], ?_, by simp⟩
            intro z hz
            rw [List.mem_cons] at hz
            rcases hz with rfl | hz
            · rw [← hk]
            · rw [List.mem_cons] at hz
              rcases hz with rfl | hz
              · rw [← hk]
                exact hyk
              · exact hmax z (by simp [hz])
        | cons p pre2 =>
            rw [List.cons_append] at hdec
            have hp : k = p := List.head_eq_of_cons_eq hdec
            have hks : ks = pre2 ++ ks.foldl (fun best p => if g p > g best then p else best) k :: post :=
              List.tail_eq_of_cons_eq hdec
            have hmk : g k < g (ks.foldl (fun best p => if g p > g best then p else best) k) := by
              have h2 := hpre p (by simp)
              rw [← hp] at h2
              exact h2
            refine ⟨k :: y :: pre2, post, ?_, ?_, ?_⟩
            · rw [List.cons_append, List.cons_append, ← hks]
            · intro z hz
              rw [List.mem_cons] at hz
              rcases hz with rfl | hz
              · exact le_of_lt hmk
              · rw [List.mem_cons] at hz
                rcases hz with rfl | hz
                · exact le_trans hyk (le_of_lt hmk)
                · exact hmax z (by simp [hz])
            · intro z hz
              rw [List.mem_cons] at hz
              rcases hz with rfl | hz
              · exact hmk
              · rw [List.mem_cons] at hz
                rcases hz with rfl | hz
                · exact lt_of_le_of_lt hyk hmk
                · exact hpre z (by simp [hz])

/-- The fold implementing `most_common(1)` equals the claim's plurality
rule: the first key, in first-occurrence order, of maximal count. -/
theorem most_common1_eq_claimPlurality (l : List (List Char)) :
    most_common1 l = claimPlurality l := by
  unfold most_common1 claimPlurality
  cases hk : firstKeys l with
  | nil => rfl
  | cons k ks =>
      obtain ⟨pre, post, hdec, hmax, hpre⟩ := foldl_max_spec (fun t => l.count t) ks k
      symm
      rw [List.find?_eq_some]
      constructor
      · rw [decide_eq_true_eq]
        intro k2 hk2
        exact hmax k2 hk2
      · refine ⟨pre, post, hdec, ?_⟩
        intro a ha
        rw [Bool.not_eq_true', decide_eq_false_iff_not]
        intro hall
        have h1 : l.count (ks.foldl (fun best p => if l.count p > l.count best then p else best) k)
            ≤ l.count a := by
          apply hall
          rw [hdec]
          exact List.mem_append_right pre (by simp)
        exact absurd h1 (not_le_of_lt (hpre a ha))

theorem mem_insertDesc (o x : Obs) : ∀ acc : List Obs,
    x ∈ insertDesc o acc ↔ x = o ∨ x ∈ acc := by
  intro acc
  induction acc with
  | nil => simp [insertDesc]
  | cons a acc ih =>
      unfold insertDesc
      by_cases h : o.license_number_score > a.license_number_score
      · rw [if_pos h]
        simp [List.mem_cons]
      · rw [if_neg h]
        rw [List.mem_cons, ih, List.mem_cons]
        tauto

theorem mem_pySortDesc (l : List Obs) (x : Obs) :
    x ∈ pySortDesc l → x ∈ l := by
  unfold pySortDesc
  suffices h : ∀ acc, x ∈ l.foldl (fun acc o => insertDesc o acc) acc → x ∈ l ∨ x ∈ acc by
    intro hx
    rcases h [] hx with h1 | h1
    · exact h1
    · exact absurd h1 (by simp)
  induction l with
  | nil =>
      intro acc h
      exact Or.inr h
  | cons a l ih =>
      intro acc h
      rw [List.foldl_cons] at h
      rcases ih (insertDesc a acc) h with h1 | h1
      · exact Or.inl (by simp [h1])
      · rw [mem_insertDesc] at h1
        rcases h1 with rfl | h1
        · exact Or.inl (by simp)
        · exact Or.inr h1

theorem mem_firstKeys (l : List (List Char)) (x : List Char) :
    x ∈ firstKeys l → x ∈ l := by
  unfold firstKeys
  suffices h : ∀ acc, x ∈ l.foldl (fun acc k => if k ∈ acc then acc else acc ++ [k]) acc →
      x ∈ l ∨ x ∈ acc by
    intro hx
    rcases h [] hx with h1 | h1
    · exact h1
    · exact absurd h1 (by simp)
  induction l with
  | nil =>
      intro acc h
      exact Or.inr h
  | cons a l ih =>
      intro acc h
      rw [List.foldl_cons] at h
      by_cases ha : a ∈ acc
      · rw [if_pos ha] at h
        rcases ih acc h with h1 | h1
        · exact Or.inl (by simp [h1])
        · exact Or.inr h1
      · rw [if_neg ha] at h
        rcases ih (acc ++ [a]) h with h1 | h1
        · exact Or.inl (by simp [h1])
        · rw [List.mem_append, List.mem_singleton] at h1
          rcases h1 with h1 | rfl
          · exact Or.inr h1
          · exact Or.inl (by simp)

theorem most_common1_mem {l : List (List Char)} {t : List Char}
    (h : most_common1 l = some t) : t ∈ l := by
  unfold most_common1 at h
  cases hk : firstKeys l with
  | nil => rw [hk] at h; exact Option.noConfusion h
  | cons k ks =>
      rw [hk] at h
      rw [Option.some_inj] at h
      obtain ⟨pre, post, hdec, _, _⟩ := foldl_max_spec (fun t => l.count t) ks k
      apply mem_firstKeys l
      rw [hk, hdec, h]
      exact List.mem_append_right pre (by simp)

/-- Claim C3 counterexample.  The claim says step 1 discards exactly the
empty and `"0"` texts.  On the single observation `" "` (one space) the
code discards it (Python truthiness of `" ".strip()` is false) and
returns a null canonical plate, while the claimed algorithm keeps `" "`
(it is neither empty nor `"0"`) and returns it. -/
theorem C3_counterexample :
    select_best_plate 10 [⟨(' ' :: []), 1⟩] = none ∧
      claimSelect 10 [⟨(' ' :: []), 1⟩] = some (' ' :: []) := by
  constructor
  · decide
  · decide

/-- Claim C3 (amended).  The consensus selector equals the claimed
algorithm once step 1 is amended to discard observations whose corrected
text is the sentinel `"0"` or consists entirely of whitespace (in
particular, is empty): filter, null result when nothing remains,
stable sort by score descending, top 10 (or all if fewer), plurality
vote with frequency ties broken by first-encountered order in the sorted
list. -/
theorem C3_select_best_plate_amended (top_n : Nat) (obs : List Obs) :
    select_best_plate top_n obs = amendedSelect top_n obs := by
  unfold select_best_plate amendedSelect
  rw [validPlates_eq_amendedFilter]
  by_cases h0 : obs.isEmpty
  · rw [if_pos h0]
    have hemp : amendedFilter obs = [] := by
      rw [List.isEmpty_iff] at h0
      rw [h0]
      rfl
    rw [if_pos (by rw [hemp]; rfl)]
  · rw [if_neg h0]
    by_cases h1 : (amendedFilter obs).isEmpty
    · rw [if_pos h1, if_pos h1]
    · rw [if_neg h1, if_neg h1, most_common1_eq_claimPlurality]
      have htake : (pySortDesc (amendedFilter obs)).take
          (min top_n (pySortDesc (amendedFilter obs)).length)
          = (pySortDesc (amendedFilter obs)).take top_n := by
        rcases le_total top_n (pySortDesc (amendedFilter obs)).length with h | h
        · rw [min_eq_left h]
        · rw [min_eq_right h, List.take_length, List.take_of_length_le h]
      rw [htake]

/-- Claim C9.  Whenever the consensus selector returns a canonical plate
text, that text is the corrected text of one of the vehicle's stored
observations — aggregation never invents a string. -/
theorem C9_canonical_text_from_observations (top_n : Nat) (obs : List Obs)
    (t : List Char) (h : select_best_plate top_n obs = some t) :
    t ∈ obs.map (fun p => p.license_number) := by
  unfold select_best_plate at h
  by_cases h0 : obs.isEmpty
  · rw [if_pos h0] at h
    exact Option.noConfusion h
  · rw [if_neg h0] at h
    by_cases h1 : (validPlates obs).isEmpty
    · rw [if_pos h1] at h
      exact Option.noConfusion h
    · rw [if_neg h1] at h
      have hmem := most_common1_mem h
      rw [List.mem_map] at hmem
      obtain ⟨p, hp, hpt⟩ := hmem
      have hp2 : p ∈ pySortDesc (validPlates obs) := List.take_subset _ _ hp
      have hp3 : p ∈ validPlates obs := mem_pySortDesc _ p hp2
      unfold validPlates at hp3
      rw [List.mem_map]
      exact ⟨p, List.mem_of_mem_filter hp3, hpt⟩

/-- Witness for claim C9: on one concrete observation the selected text is
that observation's text. -/
theorem C9_canonical_text_from_observations_witness :
    ('3' :: '4' :: 'A' :: 'B' :: 'C' :: '1' :: '2' :: '3' :: []) ∈
      ([⟨('3' :: '4' :: 'A' :: 'B' :: 'C' :: '1' :: '2' :: '3' :: []), 1⟩] : List Obs).map
        (fun p => p.license_number) :=
  C9_canonical_text_from_observations 10
    [⟨('3' :: '4' :: 'A' :: 'B' :: 'C' :: '1' :: '2' :: '3' :: []), 1⟩]
    ('3' :: '4' :: 'A' :: 'B' :: 'C' :: '1' :: '2' :: '3' :: []) (by decide)

end ALPR
